import Mathlib

/-!
Verification of the ignoregrets snapshot/restore engine.

This file gives a shallow embedding, in Lean 4, of the core logic of the
ignoregrets tool (Go sources: internal/snapshot, internal/config, cmd/prune,
cmd/inspect, cmd/status).  Go strings are modelled as lists of characters
(`Str`); the lexicographic order on `List Char` coincides with Go's byte-wise
string comparison on the ASCII filenames handled here.  The filesystem is
modelled as an association list from paths to file contents; directories,
file modes and OS-level I/O errors are outside the model.  The SHA-256 hex
digest and the glob matcher (crypto/sha256, path/filepath.Match) are external
library collaborators and are passed in as function parameters, so every
theorem quantifying over them holds for the real instantiations.
-/

namespace Ignoregrets

/-- A Go string, modelled as its list of characters. -/
abbrev Str := List Char

/-- Convenience conversion from Lean string literals to `Str`. -/
def str (s : String) : Str := s.data

/-- Decimal digit character for a single digit value (used by the embedding of
`fmt.Sprintf` with the `%d` verb). -/
def digitChar : Nat → Char
  | 0 => '0' | 1 => '1' | 2 => '2' | 3 => '3' | 4 => '4'
  | 5 => '5' | 6 => '6' | 7 => '7' | 8 => '8' | 9 => '9'
  | _ => '?'

/-- Fuel-driven decimal rendering helper (structural recursion so that the
kernel can evaluate it). -/
def toDecAux : Nat → Nat → Str
  | 0, _ => []
  | fuel + 1, n => if n < 10 then [digitChar n] else toDecAux fuel (n / 10) ++ [digitChar (n % 10)]

/-- Decimal rendering of a natural number, as produced by Go's
`fmt.Sprintf("%d", n)` for non-negative `n`: most significant digit first,
no padding, no sign. -/
def toDec (n : Nat) : Str := toDecAux (n + 1) n

/-- Numeric value of a digit character. -/
def dval (c : Char) : Nat := c.toNat - 48

/-- The character is one of the ten decimal digits. -/
def IsDigitChar (c : Char) : Prop := 48 ≤ c.toNat ∧ c.toNat ≤ 57

/-- Value of a most-significant-digit-first digit string. -/
def decVal : Str → Nat
  | [] => 0
  | c :: l => dval c * 10 ^ l.length + decVal l

/-- Zero-padding to a fixed width, as produced by Go's `time.Format` for the
fixed-width numeric fields of the reference layout `20060102T1504`. -/
def padZ (w : Nat) (n : Nat) : Str := List.replicate (w - (toDec n).length) '0' ++ toDec n

/-- A wall-clock time at minute precision, the part of a Go `time.Time` that
the snapshot filename layout `20060102T1504` serializes. -/
structure GoTime where
  year : Nat
  month : Nat
  day : Nat
  hour : Nat
  minute : Nat
deriving DecidableEq

/-- Field ranges of a real calendar time (what `time.Now().UTC()` produces);
in particular every numeric field fits its fixed width in the layout. -/
def validTime (t : GoTime) : Prop :=
  t.year < 10000 ∧ 0 < t.month ∧ t.month ≤ 12 ∧ 0 < t.day ∧ t.day ≤ 31 ∧
    t.hour < 24 ∧ t.minute < 60

/-- Embedding of `Timestamp.Format("20060102T1504")` from `CreateSnapshot`. -/
def format1504 (t : GoTime) : Str :=
  padZ 4 t.year ++ (padZ 2 t.month ++ (padZ 2 t.day ++ (['T'] ++ (padZ 2 t.hour ++ padZ 2 t.minute))))

/-- Embedding of the snapshot filename construction in `CreateSnapshot`:
`fmt.Sprintf("%s_%s_%d.tar.gz", commit, ts.Format("20060102T1504"), index)`. -/
def snapshotFilename (commit : Str) (t : GoTime) (index : Nat) : Str :=
  commit ++ ('_' :: (format1504 t ++ ('_' :: (toDec index ++ str ".tar.gz"))))

/-- Chronological order on times, at the minute precision the layout keeps. -/
def timeLt (t₁ t₂ : GoTime) : Prop :=
  t₁.year < t₂.year ∨ (t₁.year = t₂.year ∧
    (t₁.month < t₂.month ∨ (t₁.month = t₂.month ∧
      (t₁.day < t₂.day ∨ (t₁.day = t₂.day ∧
        (t₁.hour < t₂.hour ∨ (t₁.hour = t₂.hour ∧ t₁.minute < t₂.minute)))))))

/-- The chronological + index order on snapshot naming keys `(timestamp, index)`
of a fixed commit. -/
def snapKeyLt (t₁ : GoTime) (i₁ : Nat) (t₂ : GoTime) (i₂ : Nat) : Prop :=
  timeLt t₁ t₂ ∨ (t₁ = t₂ ∧ i₁ < i₂)

instance decValidTime (t : GoTime) : Decidable (validTime t) :=
  inferInstanceAs (Decidable (t.year < 10000 ∧ 0 < t.month ∧ t.month ≤ 12 ∧ 0 < t.day ∧
    t.day ≤ 31 ∧ t.hour < 24 ∧ t.minute < 60))

instance decTimeLt (t₁ t₂ : GoTime) : Decidable (timeLt t₁ t₂) :=
  inferInstanceAs (Decidable (t₁.year < t₂.year ∨ (t₁.year = t₂.year ∧
    (t₁.month < t₂.month ∨ (t₁.month = t₂.month ∧
      (t₁.day < t₂.day ∨ (t₁.day = t₂.day ∧
        (t₁.hour < t₂.hour ∨ (t₁.hour = t₂.hour ∧ t₁.minute < t₂.minute)))))))))

instance decSnapKeyLt (t₁ : GoTime) (i₁ : Nat) (t₂ : GoTime) (i₂ : Nat) :
    Decidable (snapKeyLt t₁ i₁ t₂ i₂) :=
  inferInstanceAs (Decidable (timeLt t₁ t₂ ∨ (t₁ = t₂ ∧ i₁ < i₂)))

/-- The configuration record (internal/config `Config`); the Go fields
`Exclude` and `Include` are named `excludePatterns` and `includePatterns`
here because `include` is reserved in Lean. -/
structure Config where
  retention : Int
  snapshotOn : List Str
  restoreOn : List Str
  hooksEnabled : Bool
  excludePatterns : List Str
  includePatterns : List Str
deriving DecidableEq

/-- The snapshot manifest (internal/snapshot `Manifest`).  The Go field
`Files map[string]string` is modelled as an association list from path to
checksum, reflecting the incremental `manifest.Files[path] = digest`
assignments. -/
structure Manifest where
  commitHash : Str
  timestamp : GoTime
  index : Nat
  files : List (Str × Str)
  config : Config
deriving DecidableEq

/-- Content of one tar entry.  A data entry carries raw file bytes; the single
manifest entry carries the JSON-serialized manifest.  Arbitrary file bytes
(such as `"hello"`) do not decode as a manifest, which the `bytes`
constructor reflects: `json.Unmarshal` of a data file's bytes fails. -/
inductive EntryContent where
  | bytes (data : Str)
  | mani (m : Manifest)
deriving DecidableEq

/-- One entry of the gzip-compressed tar archive: name, file mode, content. -/
structure TarEntry where
  name : Str
  mode : Nat
  content : EntryContent
deriving DecidableEq

/-- A file presented to the snapshot writer: its relative path, its content
bytes and its mode (what `addFileToArchive` reads from disk). -/
structure FileSpec where
  path : Str
  content : Str
  mode : Nat
deriving DecidableEq

/-- The reserved manifest entry name, `"manifest.json"`. -/
def manifestFileName : Str := str "manifest.json"

/-- The external glob matcher (`path/filepath.Match`): takes a pattern and a
name and returns the match result, or an error for a malformed pattern. -/
def GlobMatcher := Str → Str → Except Unit Bool

/-- How `filterFiles` consumes a `filepath.Match` result:
`matched, err := filepath.Match(pattern, name)` followed by
`err == nil && matched`, so malformed patterns count as non-matching. -/
def matchOk (gm : GlobMatcher) (pat s : Str) : Bool :=
  match gm pat s with
  | .ok b => b
  | .error _ => false

/-- Embedding of `path/filepath.Base` for Unix separators: empty path gives
`"."`, trailing slashes are stripped, the last path element is returned, and
an all-slash path gives `"/"`. -/
def base (path : Str) : Str :=
  if path = [] then str "."
  else
    let p := (path.reverse.dropWhile (fun c => c = '/')).reverse
    if p = [] then str "/"
    else (p.reverse.takeWhile (fun c => c ≠ '/')).reverse

/-- Insertion into the Go map `included` of `filterFiles`, modelled as a
duplicate-free list of keys in first-insertion order. -/
def addKey (m : List Str) (k : Str) : List Str := if k ∈ m then m else m ++ [k]

/-- Whether a file matches some exclude pattern, evaluated against the path's
base name only (`filepath.Match(pattern, filepath.Base(file))`). -/
def isExcluded (gm : GlobMatcher) (cfg : Config) (file : Str) : Bool :=
  cfg.excludePatterns.any (fun pat => matchOk gm pat (base file))

/-- Embedding of `filterFiles` (internal/snapshot): first every candidate not
matching an exclude pattern is added to the `included` map, then every
candidate matching an include pattern is added regardless; the map's key set
is returned.  The Go map has no iteration order, so the returned list is in
first-insertion order; only membership and duplicate-freeness are meaningful. -/
def filterFiles (gm : GlobMatcher) (files : List Str) (cfg : Config) : List Str :=
  let m1 := files.foldl (fun acc file => if isExcluded gm cfg file then acc else addKey acc file) []
  cfg.includePatterns.foldl
    (fun acc pat =>
      files.foldl (fun acc file => if matchOk gm pat (base file) then addKey acc file else acc) acc)
    m1

/-- Assignment `m[k] = v` on a Go `map[string]string`, as an association
list update: replace the existing binding or append a fresh one. -/
def mapInsert : List (Str × Str) → Str → Str → List (Str × Str)
  | [], k, v => [(k, v)]
  | (k', v') :: t, k, v => if k' = k then (k', v) :: t else (k', v') :: mapInsert t k v

/-- First-match association lookup on the manifest's files map. -/
def lookupStr : List (Str × Str) → Str → Option Str
  | [], _ => none
  | (k', v') :: t, k => if k' = k then some v' else lookupStr t k

/-- Embedding of `addFileToArchive`: append the file's bytes as a tar entry
(name = path, mode preserved) and record `digest(content)` under the path's
key in the manifest, where `digest` is the external hex-encoded SHA-256
(`hex.EncodeToString(sha256.Sum(content))`), streamed over exactly the bytes
written to the archive. -/
def addFileToArchive (digest : Str → Str) (tw : List TarEntry) (f : FileSpec) (m : Manifest) :
    List TarEntry × Manifest :=
  (tw ++ [⟨f.path, f.mode, .bytes f.content⟩],
   { m with files := mapInsert m.files f.path (digest f.content) })

/-- The file-writing loop of `CreateSnapshot`: each file is added to the
archive and its checksum recorded in the manifest, in order. -/
def writeSnapshotEntries (digest : Str → Str) : List FileSpec → List TarEntry → Manifest →
    List TarEntry × Manifest
  | [], tw, m => (tw, m)
  | f :: rest, tw, m =>
    let r := addFileToArchive digest tw f m
    writeSnapshotEntries digest rest r.1 r.2

/-- The archive-writing path of `CreateSnapshot`: stream all files (populating
the manifest), then marshal the final manifest and append it as a last entry
named `manifest.json` with mode 0644. -/
def encodeSnapshot (digest : Str → Str) (commit : Str) (ts : GoTime) (idx : Nat) (cfg : Config)
    (fs : List FileSpec) : List TarEntry :=
  let r := writeSnapshotEntries digest fs [] ⟨commit, ts, idx, [], cfg⟩
  r.1 ++ [⟨manifestFileName, 420, .mani r.2⟩]

/-- Embedding of `ReadManifest`: scan the tar entries in order until one named
`manifest.json` is found and decode it; a data entry under that name fails to
decode (`json.Unmarshal` error); a full scan without the name is a corruption
error.  Error payloads are the Go error message strings. -/
def ReadManifest : List TarEntry → Except Str Manifest
  | [] => .error (str "manifest.json not found in snapshot")
  | e :: rest =>
    if e.name = manifestFileName then
      match e.content with
      | .mani m => .ok m
      | .bytes _ => .error (str "failed to parse manifest")
    else ReadManifest rest

/-- The source duplicates `ReadManifest` verbatim as a second decoding path
used by `RestoreSnapshot`; the embedding shares one definition. -/
def readManifestFromSnapshot : List TarEntry → Except Str Manifest := ReadManifest

/-- The working tree, modelled as an association list from relative path to
file content; a new write shadows older bindings, so `lookupFS` always sees
the latest write (this models create-or-truncate).  Directories and file
modes are not modelled. -/
abbrev FS := List (Str × EntryContent)

/-- Current content of a path, if the path exists (`os.Stat` succeeding). -/
def lookupFS : FS → Str → Option EntryContent
  | [], _ => none
  | (n, c) :: t, k => if n = k then some c else lookupFS t k

/-- Whether a path exists on disk (the `os.Stat(hdr.Name)` check). -/
def existsFS (fs : FS) (k : Str) : Bool := (lookupFS fs k).isSome

/-- The per-entry action a restore run takes and reports: restore the entry,
or skip it because the destination already exists. -/
inductive Action where
  | restore (name : Str)
  | skip (name : Str)
deriving DecidableEq

/-- Embedding of `restoreFile`: the manifest entry is skipped as data; an
existing destination with `force` unset is reported as skipped and left
untouched; under `dryRun` the would-be action is reported and nothing is
written; otherwise the entry is written (create-or-truncate).  OS write
errors are outside the model, so the function is total. -/
def restoreFile (fs : FS) (e : TarEntry) (dryRun force : Bool) : FS × List Action :=
  if e.name = manifestFileName then (fs, [])
  else if existsFS fs e.name && !force then (fs, [.skip e.name])
  else if dryRun then (fs, [.restore e.name])
  else ((e.name, e.content) :: fs, [.restore e.name])

/-- The entry loop of `RestoreSnapshot`: apply `restoreFile` to every tar
entry in order, threading the filesystem and concatenating the reports. -/
def restoreEntries (dryRun force : Bool) : FS → List TarEntry → FS × List Action
  | fs, [] => (fs, [])
  | fs, e :: rest =>
    let r := restoreFile fs e dryRun force
    let rr := restoreEntries dryRun force r.1 rest
    (rr.1, r.2 ++ rr.2)

/-- Ascending lexicographic sort, the order in which `filepath.Glob` returns
a directory's matches (Go sorts each directory's names). -/
def sortAsc (l : List Str) : List Str := List.insertionSort (fun a b => a ≤ b) l

/-- Descending lexicographic sort,
`sort.Sort(sort.Reverse(sort.StringSlice(files)))`. -/
def sortDesc (l : List Str) : List Str := List.insertionSort (fun a b => b ≤ a) l

/-- Whether a file name matches the glob pattern `commit + "_*.tar.gz"` used
by `getNextIndex`, `findSnapshot`, `findLatestSnapshot` and the inspect
command.  For a literal commit string (git hashes contain no glob
metacharacters) and names free of path separators (directory entries), the
pattern is equivalent to: prefixed by `commit + "_"`, suffixed by
`".tar.gz"`, and long enough that prefix and suffix do not overlap. -/
def snapshotGlobMatch (commit : Str) (name : Str) : Bool :=
  (commit ++ ['_']).isPrefixOf name && (str ".tar.gz").isSuffixOf name &&
    decide (commit.length + 1 + 7 ≤ name.length)

/-- Go slice indexing `xs[i]` with an `int` index: in-range access returns the
element, any other index panics at runtime (modelled as `none`). -/
def goIndex (xs : List Str) (i : Int) : Option Str :=
  if h : 0 ≤ i ∧ i.toNat < xs.length then some (xs.get ⟨i.toNat, h.2⟩) else none

/-- Result of a snapshot selection: a path, a returned error, or a runtime
panic (out-of-range slice access). -/
inductive FindResult where
  | found (p : Str)
  | err (msg : Str)
  | panicked
deriving DecidableEq

/-- Embedding of `findSnapshot` (internal/snapshot): glob the snapshots
directory for `commit + "_*.tar.gz"` (matches come back in ascending
lexicographic order — `filepath.Glob` sorts), error if there are none, error
if `index >= len(matches)`, otherwise return `matches[index]`.  The constant
directory prefix joined onto every match is dropped, as it does not affect
order or choice. -/
def findSnapshot (names : List Str) (commit : Str) (index : Int) : FindResult :=
  let ms := sortAsc (names.filter (snapshotGlobMatch commit))
  if ms.length = 0 then .err (str "no snapshots found")
  else if index ≥ (ms.length : Int) then .err (str "snapshot index not found")
  else
    match goIndex ms index with
    | some p => .found p
    | none => .panicked

/-- Embedding of the inspect command's snapshot selection (cmd/inspect): glob
as above, error if empty, re-sort descending (`sort.Reverse`), error if
`snapIndex >= len(matches)`, otherwise return `matches[snapIndex]`. -/
def inspectSelect (names : List Str) (commit : Str) (index : Int) : FindResult :=
  let globbed := sortAsc (names.filter (snapshotGlobMatch commit))
  if globbed.length = 0 then .err (str "no snapshots found")
  else
    let ms := sortDesc globbed
    if index ≥ (ms.length : Int) then .err (str "snapshot index not found")
    else
      match goIndex ms index with
      | some p => .found p
      | none => .panicked

/-- The snapshots directory, as an association from file name to the decoded
archive behind it (opening a found file yields its entry stream). -/
def lookupArchive : List (Str × List TarEntry) → Str → Option (List TarEntry)
  | [], _ => none
  | (n, a) :: t, k => if n = k then some a else lookupArchive t k

/-- Embedding of `RestoreSnapshot`: resolve the archive via `findSnapshot`,
decode the manifest first, validate `manifest.CommitHash == commit`, and only
then run the entry loop.  The result is the final filesystem, the reported
actions, and the error (if any); every failure leaves the filesystem
untouched with no action taken. -/
def RestoreSnapshot (dir : List (Str × List TarEntry)) (fs : FS) (commit : Str) (index : Int)
    (force dryRun : Bool) : FS × List Action × Option Str :=
  match findSnapshot (dir.map Prod.fst) commit index with
  | .err m => (fs, [], some m)
  | .panicked => (fs, [], some (str "runtime error: index out of range"))
  | .found name =>
    match lookupArchive dir name with
    | none => (fs, [], some (str "failed to open snapshot"))
    | some archive =>
      match readManifestFromSnapshot archive with
      | .error e => (fs, [], some e)
      | .ok m =>
        if m.commitHash = commit then
          let r := restoreEntries dryRun force fs archive
          (r.1, r.2, none)
        else (fs, [], some (str "snapshot commit hash mismatch"))

/-- Splitting on a separator character, `strings.Split(name, "_")`:
the result always has at least one part; a leading/trailing/double separator
contributes empty parts. -/
def splitOnChar (sep : Char) : Str → List Str
  | [] => [[]]
  | c :: rest =>
    let r := splitOnChar sep rest
    if c = sep then [] :: r
    else
      match r with
      | [] => [[c]]
      | h :: t => (c :: h) :: t

/-- The commit group key the prune command assigns to a directory entry: for
a name suffixed `".tar.gz"` that splits on `"_"` into at least two parts, the
first part; otherwise the entry is not grouped (skipped). -/
def snapKeyOf (name : Str) : Option Str :=
  if (str ".tar.gz").isSuffixOf name then
    match splitOnChar '_' name with
    | p₀ :: _ :: _ => some p₀
    | _ => none
  else none

/-- Appending a file to its commit's group, `snapshots[commit] = append(...)`
(group contents keep directory iteration order). -/
def addToGroup (c : Str) (f : Str) : List (Str × List Str) → List (Str × List Str)
  | [] => [(c, [f])]
  | (c', g) :: t => if c' = c then (c', f :: g) :: t else (c', g) :: addToGroup c f t

/-- The grouping loop of the prune command: every `.tar.gz` entry with at
least two `"_"`-separated parts joins the group of its first part. -/
def groupSnapshots : List Str → List (Str × List Str)
  | [] => []
  | f :: rest =>
    match snapKeyOf f with
    | none => groupSnapshots rest
    | some c => addToGroup c f (groupSnapshots rest)

/-- Lookup of one commit's group. -/
def groupGet : List (Str × List Str) → Str → List Str
  | [], _ => []
  | (c', g) :: t, c => if c' = c then g else groupGet t c

/-- The directory entries the prune command counts as snapshots of `c`. -/
def snapshotsFor (files : List Str) (c : Str) : List Str :=
  files.filter (fun f => snapKeyOf f = some c)

/-- The full deletion set of one prune run: within each commit group, sort
descending and delete everything beyond the first `retention` entries
(`files[retention:]` of the sorted group). -/
def pruneDeletions (files : List Str) (retention : Nat) : List Str :=
  ((groupSnapshots files).map (fun p => (sortDesc p.2).drop retention)).flatten

/-- Embedding of the prune command (cmd/prune): reject `retention < 1`,
otherwise remove every file in the deletion set; the result is the directory
listing after the run.  (Go's `retention` is an `int`; a non-positive value
is rejected before any deletion, so `Nat` with the zero check is faithful.) -/
def pruneRun (files : List Str) (retention : Nat) : Except Str (List Str) :=
  if retention < 1 then .error (str "retention must be greater than 0")
  else .ok (files.filter (fun f => decide (f ∉ pruneDeletions files retention)))

/-- A literal-equality glob matcher (a pattern matches exactly itself); a
concrete `GlobMatcher` instantiation used by witnesses. -/
def eqMatcher : GlobMatcher := fun pat s => .ok (decide (pat = s))

/-- The names of the data entries of an archive (every entry except the
reserved manifest entry). -/
def dataNames (es : List TarEntry) : List Str :=
  (es.filter (fun e => decide (e.name ≠ manifestFileName))).map (fun e => e.name)

lemma mem_addKey {m : List Str} {k x : Str} : x ∈ addKey m k ↔ x ∈ m ∨ x = k := by
  by_cases h : k ∈ m
  · simp only [addKey, if_pos h]
    constructor
    · exact Or.inl
    · rintro (hx | rfl)
      · exact hx
      · exact h
  · simp [addKey, if_neg h]

lemma nodup_addKey {m : List Str} {k : Str} (h : m.Nodup) : (addKey m k).Nodup := by
  by_cases hk : k ∈ m
  · simpa [addKey, if_pos hk] using h
  · simp [addKey, if_neg hk, List.nodup_append, h, hk]

lemma mem_excludeFold (gm : GlobMatcher) (cfg : Config) (files : List Str) (acc : List Str)
    (x : Str) :
    x ∈ files.foldl (fun acc file => if isExcluded gm cfg file then acc else addKey acc file) acc ↔
      x ∈ acc ∨ (x ∈ files ∧ isExcluded gm cfg x = false) := by
  induction files generalizing acc with
  | nil => simp
  | cons f rest ih =>
    cases hf : isExcluded gm cfg f with
    | true =>
      simp only [List.foldl_cons, hf, if_true, ih, List.mem_cons]
      constructor
      · tauto
      · rintro (h | ⟨(rfl | hx), hex⟩)
        · tauto
        · rw [hf] at hex; cases hex
        · tauto
    | false =>
      simp only [List.foldl_cons, hf, Bool.false_eq_true, if_false, ih, List.mem_cons, mem_addKey]
      constructor
      · rintro ((h | rfl) | ⟨hx, hex⟩) <;> tauto
      · rintro (h | ⟨(rfl | hx), hex⟩) <;> tauto

lemma nodup_excludeFold (gm : GlobMatcher) (cfg : Config) (files : List Str) :
    ∀ acc : List Str, acc.Nodup →
      (files.foldl (fun acc file => if isExcluded gm cfg file then acc
        else addKey acc file) acc).Nodup := by
  induction files with
  | nil => intro acc h; simpa using h
  | cons f rest ih =>
    intro acc h
    cases hf : isExcluded gm cfg f with
    | true => simpa only [List.foldl_cons, hf, if_true] using ih acc h
    | false =>
      simpa only [List.foldl_cons, hf, Bool.false_eq_true, if_false] using
        ih (addKey acc f) (nodup_addKey h)

lemma mem_includeFoldOne (gm : GlobMatcher) (pat : Str) (files : List Str) (acc : List Str)
    (x : Str) :
    x ∈ files.foldl (fun a file => if matchOk gm pat (base file) then addKey a file else a) acc ↔
      x ∈ acc ∨ (x ∈ files ∧ matchOk gm pat (base x) = true) := by
  induction files generalizing acc with
  | nil => simp
  | cons f rest ih =>
    cases hf : matchOk gm pat (base f) with
    | true =>
      simp only [List.foldl_cons, hf, if_true, ih, List.mem_cons, mem_addKey]
      constructor
      · rintro ((h | rfl) | ⟨hx, hm⟩) <;> tauto
      · rintro (h | ⟨(rfl | hx), hm⟩) <;> tauto
    | false =>
      simp only [List.foldl_cons, hf, Bool.false_eq_true, if_false, ih, List.mem_cons]
      constructor
      · tauto
      · rintro (h | ⟨(rfl | hx), hm⟩)
        · tauto
        · rw [hf] at hm; cases hm
        · tauto

lemma nodup_includeFoldOne (gm : GlobMatcher) (pat : Str) (files : List Str) :
    ∀ acc : List Str, acc.Nodup →
      (files.foldl (fun a file => if matchOk gm pat (base file) then addKey a file
        else a) acc).Nodup := by
  induction files with
  | nil => intro acc h; simpa using h
  | cons f rest ih =>
    intro acc h
    cases hf : matchOk gm pat (base f) with
    | true =>
      simpa only [List.foldl_cons, hf, if_true] using ih (addKey acc f) (nodup_addKey h)
    | false =>
      simpa only [List.foldl_cons, hf, Bool.false_eq_true, if_false] using ih acc h

lemma mem_includeFold (gm : GlobMatcher) (files : List Str) (pats : List Str) (acc : List Str)
    (x : Str) :
    x ∈ pats.foldl (fun acc pat =>
        files.foldl (fun a file => if matchOk gm pat (base file) then addKey a file else a) acc)
        acc ↔
      x ∈ acc ∨ (x ∈ files ∧ ∃ pat ∈ pats, matchOk gm pat (base x) = true) := by
  induction pats generalizing acc with
  | nil => simp
  | cons p ps ih =>
    simp only [List.foldl_cons, ih, mem_includeFoldOne, List.mem_cons]
    constructor
    · rintro ((h | ⟨hx, hm⟩) | ⟨hx, pat, hpat, hm⟩)
      · tauto
      · exact Or.inr ⟨hx, p, Or.inl rfl, hm⟩
      · exact Or.inr ⟨hx, pat, Or.inr hpat, hm⟩
    · rintro (h | ⟨hx, pat, (rfl | hpat), hm⟩)
      · tauto
      · exact Or.inl (Or.inr ⟨hx, hm⟩)
      · exact Or.inr ⟨hx, pat, hpat, hm⟩

lemma nodup_includeFold (gm : GlobMatcher) (files : List Str) (pats : List Str) :
    ∀ acc : List Str, acc.Nodup →
      (pats.foldl (fun acc pat =>
        files.foldl (fun a file => if matchOk gm pat (base file) then addKey a file else a) acc)
        acc).Nodup := by
  induction pats with
  | nil => intro acc h; simpa using h
  | cons p ps ih =>
    intro acc h
    simpa only [List.foldl_cons] using ih _ (nodup_includeFoldOne gm p files acc h)

lemma mem_filterFiles (gm : GlobMatcher) (files : List Str) (cfg : Config) (x : Str) :
    x ∈ filterFiles gm files cfg ↔
      x ∈ files ∧
        (isExcluded gm cfg x = false ∨
          ∃ pat ∈ cfg.includePatterns, matchOk gm pat (base x) = true) := by
  unfold filterFiles
  rw [mem_includeFold, mem_excludeFold]
  tauto

lemma nodup_filterFiles (gm : GlobMatcher) (files : List Str) (cfg : Config) :
    (filterFiles gm files cfg).Nodup := by
  unfold filterFiles
  exact nodup_includeFold gm files cfg.includePatterns _
    (nodup_excludeFold gm cfg files [] List.nodup_nil)

/-- Claim C7: for every candidate list and configuration (and every glob
matcher), membership in `filterFiles` is exactly "candidate, and (not
excluded, or matched by some include pattern)" — so a path whose base name
matches an include pattern is in the output regardless of exclusion, both
pattern kinds are evaluated against the base name only, and the output has
no duplicate paths. -/
theorem C7_filter_include_precedence (gm : GlobMatcher) (files : List Str) (cfg : Config) :
    (∀ p, p ∈ filterFiles gm files cfg ↔
        p ∈ files ∧
          (isExcluded gm cfg p = false ∨
            ∃ pat ∈ cfg.includePatterns, matchOk gm pat (base p) = true))
      ∧ (filterFiles gm files cfg).Nodup :=
  ⟨fun p => mem_filterFiles gm files cfg p, nodup_filterFiles gm files cfg⟩

/-- Claim C9: the output of `filterFiles` is a subset of its input — include
patterns can only retain candidates, never introduce new paths. -/
theorem C9_filter_subset (gm : GlobMatcher) (files : List Str) (cfg : Config) (p : Str)
    (hp : p ∈ filterFiles gm files cfg) : p ∈ files :=
  ((mem_filterFiles gm files cfg p).mp hp).1

/-- Witness for C9 at a concrete input. -/
theorem C9_witness :
    str "a" ∈ filterFiles eqMatcher [str "a"] ⟨10, [], [], false, [], []⟩ ∧
      str "a" ∈ [str "a"] :=
  ⟨by decide, C9_filter_subset eqMatcher [str "a"] ⟨10, [], [], false, [], []⟩ (str "a")
    (by decide)⟩

lemma goIndex_eq_some (xs : List Str) (i : Int) (h0 : 0 ≤ i) (hlt : i < (xs.length : Int)) :
    goIndex xs i = some (xs.get ⟨i.toNat, by rwa [Int.toNat_lt h0]⟩) := by
  unfold goIndex
  rw [dif_pos ⟨h0, by rwa [Int.toNat_lt h0]⟩]

lemma goIndex_isSome (xs : List Str) (i : Int) (h0 : 0 ≤ i) (hlt : i < (xs.length : Int)) :
    ∃ p, goIndex xs i = some p :=
  ⟨_, goIndex_eq_some xs i h0 hlt⟩

/-- Claim C10 (amended): for every commit string and every non-negative
index, `findSnapshot` and the inspect command's selection return a path or an
error and never panic on an out-of-range slice access.  (As stated over all
integer indices the claim is false: see the counterexample, a negative index
panics.) -/
theorem C10_index_safety (names : List Str) (commit : Str) (index : Int) (h0 : 0 ≤ index) :
    findSnapshot names commit index ≠ .panicked ∧
      inspectSelect names commit index ≠ .panicked := by
  constructor
  · unfold findSnapshot
    by_cases h1 : (sortAsc (names.filter (snapshotGlobMatch commit))).length = 0
    · simp [h1]
    · by_cases h2 : index ≥ ((sortAsc (names.filter (snapshotGlobMatch commit))).length : Int)
      · simp [h1, h2]
      · obtain ⟨p, hp⟩ := goIndex_isSome (sortAsc (names.filter (snapshotGlobMatch commit)))
          index h0 (by omega)
        simp [h1, h2, hp]
  · unfold inspectSelect
    by_cases h1 : (sortAsc (names.filter (snapshotGlobMatch commit))).length = 0
    · simp [h1]
    · by_cases h2 : index ≥
        ((sortDesc (sortAsc (names.filter (snapshotGlobMatch commit)))).length : Int)
      · simp [h1, h2]
      · obtain ⟨p, hp⟩ := goIndex_isSome
          (sortDesc (sortAsc (names.filter (snapshotGlobMatch commit)))) index h0 (by omega)
        simp [h1, h2, hp]

/-- Counterexample to claim C10 as stated: at index `-1` with one matching
snapshot on disk, `findSnapshot` reaches `matches[-1]` and panics (the guard
only checks `index >= len(matches)`). -/
theorem C10_cex :
    findSnapshot [str "c_20240101T0000_0.tar.gz"] (str "c") (-1) = .panicked := by decide

/-- Witness for C10 at a concrete input. -/
theorem C10_witness :
    (0 : Int) ≤ 0 ∧
      findSnapshot [str "c_20240101T0000_0.tar.gz"] (str "c") 0 ≠ .panicked ∧
        inspectSelect [str "c_20240101T0000_0.tar.gz"] (str "c") 0 ≠ .panicked :=
  ⟨le_refl 0, (C10_index_safety [str "c_20240101T0000_0.tar.gz"] (str "c") 0 (le_refl 0)).1,
    (C10_index_safety [str "c_20240101T0000_0.tar.gz"] (str "c") 0 (le_refl 0)).2⟩

/-- Claim C1 (code evaluation at the failing input): with two snapshots of
commit `abc` on disk, `findSnapshot(abc, 0)` returns the lexicographically
least (oldest) filename, not the greatest (newest) one the documentation
promises — the glob matches are in ascending order and are never re-sorted
descending. -/
theorem C1_selector_returns_oldest :
    findSnapshot [str "abc_20240102T0000_0.tar.gz", str "abc_20240101T0000_0.tar.gz"]
        (str "abc") 0 = .found (str "abc_20240101T0000_0.tar.gz")
      ∧ str "abc_20240101T0000_0.tar.gz" < str "abc_20240102T0000_0.tar.gz" := by decide

lemma restoreFile_eq (fs : FS) (e : TarEntry) (d f : Bool) :
    restoreFile fs e d f =
      if e.name = manifestFileName then (fs, [])
      else if existsFS fs e.name = true ∧ f = false then (fs, [Action.skip e.name])
      else if d = true then (fs, [Action.restore e.name])
      else ((e.name, e.content) :: fs, [Action.restore e.name]) := by
  simp only [restoreFile, Bool.and_eq_true, Bool.not_eq_true']

lemma lookupFS_write_ne (fs : FS) (n : Str) (c : EntryContent) (k : Str) (h : n ≠ k) :
    lookupFS ((n, c) :: fs) k = lookupFS fs k := by
  simp [lookupFS, h]

lemma dataNames_cons_mani {e : TarEntry} (rest : List TarEntry)
    (h : e.name = manifestFileName) : dataNames (e :: rest) = dataNames rest := by
  simp [dataNames, h]

lemma dataNames_cons_data {e : TarEntry} (rest : List TarEntry)
    (h : e.name ≠ manifestFileName) : dataNames (e :: rest) = e.name :: dataNames rest := by
  simp [dataNames, h]

lemma mem_dataNames {e : TarEntry} {rest : List TarEntry} (he : e ∈ rest)
    (hne : e.name ≠ manifestFileName) : e.name ∈ dataNames rest := by
  unfold dataNames
  rw [List.mem_map]
  exact ⟨e, by rw [List.mem_filter]; exact ⟨he, by simp [hne]⟩, rfl⟩

lemma restoreFile_fst_dry (fs : FS) (e : TarEntry) (force : Bool) :
    (restoreFile fs e true force).1 = fs := by
  rw [restoreFile_eq]
  split
  · rfl
  · split
    · rfl
    · rw [if_pos rfl]

lemma restoreEntries_fst_dry (force : Bool) (fs : FS) (es : List TarEntry) :
    (restoreEntries true force fs es).1 = fs := by
  induction es generalizing fs with
  | nil => rfl
  | cons e rest ih => simp only [restoreEntries, restoreFile_fst_dry, ih]

lemma restoreFile_preserves (fs : FS) (e : TarEntry) (d : Bool) (k : Str) (v : EntryContent)
    (hv : lookupFS fs k = some v) :
    lookupFS (restoreFile fs e d false).1 k = some v := by
  rw [restoreFile_eq]
  split
  · exact hv
  · split
    · exact hv
    · split
      · exact hv
      · rename_i h1 h2 h3
        have hne : e.name ≠ k := by
          intro heq
          exact h2 ⟨by simp [existsFS, heq, hv], rfl⟩
        rw [lookupFS_write_ne fs e.name e.content k hne]
        exact hv

lemma restoreEntries_preserves (es : List TarEntry) (fs : FS) (k : Str) (v : EntryContent)
    (hv : lookupFS fs k = some v) :
    lookupFS (restoreEntries false false fs es).1 k = some v := by
  induction es generalizing fs with
  | nil => exact hv
  | cons e rest ih =>
    simp only [restoreEntries]
    exact ih _ (restoreFile_preserves fs e false k v hv)

lemma restoreFile_other (fs : FS) (e : TarEntry) (d f : Bool) (k : Str) (h : e.name ≠ k) :
    lookupFS (restoreFile fs e d f).1 k = lookupFS fs k := by
  rw [restoreFile_eq]
  split
  · rfl
  · split
    · rfl
    · split
      · rfl
      · exact lookupFS_write_ne fs e.name e.content k h

lemma restoreEntries_other (es : List TarEntry) (fs : FS) (d f : Bool) (k : Str)
    (h : ∀ e ∈ es, e.name ≠ k) :
    lookupFS (restoreEntries d f fs es).1 k = lookupFS fs k := by
  induction es generalizing fs with
  | nil => rfl
  | cons e rest ih =>
    simp only [restoreEntries]
    rw [ih _ (fun e' he' => h e' (List.mem_cons_of_mem _ he')),
      restoreFile_other fs e d f k (h e (List.mem_cons_self _ _))]

lemma restoreEntries_skip_mem (pre : List TarEntry) (e : TarEntry) (post : List TarEntry)
    (fs : FS) (v : EntryContent) (hname : e.name ≠ manifestFileName)
    (hv : lookupFS fs e.name = some v) :
    Action.skip e.name ∈ (restoreEntries false false fs (pre ++ e :: post)).2 := by
  induction pre generalizing fs with
  | nil =>
    have hstep : restoreFile fs e false false = (fs, [Action.skip e.name]) := by
      rw [restoreFile_eq, if_neg hname, if_pos ⟨by simp [existsFS, hv], rfl⟩]
    simp [restoreEntries, hstep]
  | cons p pre ih =>
    simp only [List.cons_append, restoreEntries, List.mem_append]
    exact Or.inr (ih (restoreFile fs p false false).1
      (restoreFile_preserves fs p false e.name v hv))

lemma restoreEntries_force_writes (pre : List TarEntry) (e : TarEntry) (post : List TarEntry)
    (fs : FS) (hname : e.name ≠ manifestFileName)
    (hpost : ∀ e' ∈ post, e'.name ≠ e.name) :
    lookupFS (restoreEntries false true fs (pre ++ e :: post)).1 e.name = some e.content := by
  induction pre generalizing fs with
  | nil =>
    have hstep : restoreFile fs e false true = ((e.name, e.content) :: fs,
        [Action.restore e.name]) := by
      rw [restoreFile_eq, if_neg hname, if_neg (by rintro ⟨-, h⟩; cases h), if_neg (by simp)]
    simp only [List.nil_append, restoreEntries, hstep]
    rw [restoreEntries_other post _ false true e.name hpost]
    simp [lookupFS]
  | cons p pre ih =>
    simp only [List.cons_append, restoreEntries]
    exact ih _

/-- Claim C3: a non-forced, non-dry restore never changes a pre-existing
path: its content is unchanged after the whole run, a skip for it is
reported, and the loop continues over the remaining entries (the run is
total); the same run with `force=true` overwrites that path with the
archived content (of its unique archive entry). -/
theorem C3_no_clobber (fs : FS) (entries pre post : List TarEntry) (e : TarEntry)
    (v : EntryContent)
    (hsplit : entries = pre ++ e :: post)
    (hname : e.name ≠ manifestFileName)
    (hv : lookupFS fs e.name = some v)
    (hpost : ∀ e' ∈ post, e'.name ≠ e.name) :
    lookupFS (restoreEntries false false fs entries).1 e.name = some v
      ∧ Action.skip e.name ∈ (restoreEntries false false fs entries).2
      ∧ lookupFS (restoreEntries false true fs entries).1 e.name = some e.content := by
  subst hsplit
  exact ⟨restoreEntries_preserves _ fs e.name v hv,
    restoreEntries_skip_mem pre e post fs v hname hv,
    restoreEntries_force_writes pre e post fs hname hpost⟩

/-- Witness for C3 at a concrete input: `.env` exists with old content, the
archive holds a new content for it plus one other file. -/
theorem C3_witness :
    ([⟨str "b.txt", 420, .bytes (str "x")⟩, ⟨str ".env", 420, .bytes (str "new")⟩]
        : List TarEntry) =
        [⟨str "b.txt", 420, .bytes (str "x")⟩] ++ ⟨str ".env", 420, .bytes (str "new")⟩ :: []
      ∧ str ".env" ≠ manifestFileName
      ∧ lookupFS [(str ".env", .bytes (str "old"))] (str ".env") = some (.bytes (str "old"))
      ∧ (lookupFS (restoreEntries false false [(str ".env", .bytes (str "old"))]
            [⟨str "b.txt", 420, .bytes (str "x")⟩, ⟨str ".env", 420, .bytes (str "new")⟩]).1
            (str ".env") = some (.bytes (str "old"))
          ∧ Action.skip (str ".env") ∈ (restoreEntries false false
              [(str ".env", .bytes (str "old"))]
              [⟨str "b.txt", 420, .bytes (str "x")⟩,
                ⟨str ".env", 420, .bytes (str "new")⟩]).2
          ∧ lookupFS (restoreEntries false true [(str ".env", .bytes (str "old"))]
              [⟨str "b.txt", 420, .bytes (str "x")⟩,
                ⟨str ".env", 420, .bytes (str "new")⟩]).1
              (str ".env") = some (.bytes (str "new"))) :=
  ⟨by decide, by decide, by decide,
    C3_no_clobber [(str ".env", .bytes (str "old"))]
      [⟨str "b.txt", 420, .bytes (str "x")⟩, ⟨str ".env", 420, .bytes (str "new")⟩]
      [⟨str "b.txt", 420, .bytes (str "x")⟩] [] ⟨str ".env", 420, .bytes (str "new")⟩
      (.bytes (str "old")) (by decide) (by decide) (by decide) (by decide)⟩

/-- Claim C4: whenever the selected archive's manifest decodes to a commit
hash different from the requested commit, `RestoreSnapshot` fails with the
mismatch error, the filesystem is untouched and no entry action is taken —
the manifest is decoded and compared before any file is written. -/
theorem C4_commit_binding (dir : List (Str × List TarEntry)) (fs : FS) (commit : Str)
    (index : Int) (force dryRun : Bool) (name : Str) (archive : List TarEntry) (m : Manifest)
    (hfind : findSnapshot (dir.map Prod.fst) commit index = .found name)
    (hopen : lookupArchive dir name = some archive)
    (hman : readManifestFromSnapshot archive = .ok m)
    (hne : m.commitHash ≠ commit) :
    RestoreSnapshot dir fs commit index force dryRun =
      (fs, [], some (str "snapshot commit hash mismatch")) := by
  unfold RestoreSnapshot
  simp only [hfind, hopen, hman]
  rw [if_neg hne]

/-- Witness for C4 at a concrete input: an archive bound to commit `abc`
requested against commit `def`. -/
theorem C4_witness :
    findSnapshot [str "def_20240101T0000_0.tar.gz"] (str "def") 0 =
        .found (str "def_20240101T0000_0.tar.gz")
      ∧ lookupArchive
          [(str "def_20240101T0000_0.tar.gz",
            [⟨manifestFileName, 420,
              .mani ⟨str "abc", ⟨2024, 1, 1, 0, 0⟩, 0, [], ⟨10, [], [], false, [], []⟩⟩⟩])]
          (str "def_20240101T0000_0.tar.gz") =
          some [⟨manifestFileName, 420,
            .mani ⟨str "abc", ⟨2024, 1, 1, 0, 0⟩, 0, [], ⟨10, [], [], false, [], []⟩⟩⟩]
      ∧ readManifestFromSnapshot
          [⟨manifestFileName, 420,
            .mani ⟨str "abc", ⟨2024, 1, 1, 0, 0⟩, 0, [], ⟨10, [], [], false, [], []⟩⟩⟩] =
          .ok ⟨str "abc", ⟨2024, 1, 1, 0, 0⟩, 0, [], ⟨10, [], [], false, [], []⟩⟩
      ∧ str "abc" ≠ str "def"
      ∧ RestoreSnapshot
          [(str "def_20240101T0000_0.tar.gz",
            [⟨manifestFileName, 420,
              .mani ⟨str "abc", ⟨2024, 1, 1, 0, 0⟩, 0, [], ⟨10, [], [], false, [], []⟩⟩⟩])]
          [(str ".env", .bytes (str "keep"))] (str "def") 0 true false =
          ([(str ".env", .bytes (str "keep"))], [],
            some (str "snapshot commit hash mismatch")) :=
  ⟨by decide, by decide, by rfl, by decide,
    C4_commit_binding
      [(str "def_20240101T0000_0.tar.gz",
        [⟨manifestFileName, 420,
          .mani ⟨str "abc", ⟨2024, 1, 1, 0, 0⟩, 0, [], ⟨10, [], [], false, [], []⟩⟩⟩])]
      [(str ".env", .bytes (str "keep"))] (str "def") 0 true false
      (str "def_20240101T0000_0.tar.gz")
      [⟨manifestFileName, 420,
        .mani ⟨str "abc", ⟨2024, 1, 1, 0, 0⟩, 0, [], ⟨10, [], [], false, [], []⟩⟩⟩]
      ⟨str "abc", ⟨2024, 1, 1, 0, 0⟩, 0, [], ⟨10, [], [], false, [], []⟩⟩
      (by decide) (by decide) (by rfl) (by decide)⟩

lemma restoreEntries_dryReal (es : List TarEntry) (force : Bool) (fs₁ fs₂ : FS)
    (hnd : (dataNames es).Nodup)
    (hag : ∀ e ∈ es, e.name ≠ manifestFileName → existsFS fs₁ e.name = existsFS fs₂ e.name) :
    (restoreEntries true force fs₁ es).2 = (restoreEntries false force fs₂ es).2 := by
  induction es generalizing fs₁ fs₂ with
  | nil => rfl
  | cons e rest ih =>
    by_cases hm : e.name = manifestFileName
    · have h₁ : restoreFile fs₁ e true force = (fs₁, []) := by
        rw [restoreFile_eq, if_pos hm]
      have h₂ : restoreFile fs₂ e false force = (fs₂, []) := by
        rw [restoreFile_eq, if_pos hm]
      simp only [restoreEntries, h₁, h₂, List.nil_append]
      exact ih fs₁ fs₂ (by rwa [dataNames_cons_mani rest hm] at hnd)
        (fun e' he' hne' => hag e' (List.mem_cons_of_mem _ he') hne')
    · have hx : existsFS fs₁ e.name = existsFS fs₂ e.name :=
        hag e (List.mem_cons_self _ _) hm
      have hnd0 : (e.name :: dataNames rest).Nodup := by
        rwa [dataNames_cons_data rest hm] at hnd
      have hmem := List.nodup_cons.mp hnd0
      by_cases hsk : existsFS fs₂ e.name = true ∧ force = false
      · have h₁ : restoreFile fs₁ e true force = (fs₁, [Action.skip e.name]) := by
          rw [restoreFile_eq, if_neg hm, if_pos ⟨by rw [hx]; exact hsk.1, hsk.2⟩]
        have h₂ : restoreFile fs₂ e false force = (fs₂, [Action.skip e.name]) := by
          rw [restoreFile_eq, if_neg hm, if_pos hsk]
        simp only [restoreEntries, h₁, h₂]
        rw [ih fs₁ fs₂ hmem.2 (fun e' he' hne' => hag e' (List.mem_cons_of_mem _ he') hne')]
      · have hsk₁ : ¬(existsFS fs₁ e.name = true ∧ force = false) := by
          rw [hx]; exact hsk
        have h₁ : restoreFile fs₁ e true force = (fs₁, [Action.restore e.name]) := by
          rw [restoreFile_eq, if_neg hm, if_neg hsk₁, if_pos rfl]
        have h₂ : restoreFile fs₂ e false force =
            ((e.name, e.content) :: fs₂, [Action.restore e.name]) := by
          rw [restoreFile_eq, if_neg hm, if_neg hsk, if_neg (by simp)]
        simp only [restoreEntries, h₁, h₂]
        rw [ih fs₁ ((e.name, e.content) :: fs₂) hmem.2 ?_]
        intro e' he' hne'
        have hne : e.name ≠ e'.name := by
          intro heq
          exact hmem.1 (heq ▸ mem_dataNames he' hne')
        have hw : existsFS ((e.name, e.content) :: fs₂) e'.name = existsFS fs₂ e'.name := by
          unfold existsFS
          rw [lookupFS_write_ne fs₂ e.name e.content e'.name hne]
        rw [hw]
        exact hag e' (List.mem_cons_of_mem _ he') hne'

/-- Claim C5 (amended): a dry run performs zero filesystem writes regardless
of `force`, and — for archives whose data entry names are pairwise distinct,
as the snapshot writer produces — the action list a dry run reports equals
the action list a non-dry run starting from the same filesystem state takes.
(As stated over every archive the action-set half is false: see the
counterexample with a duplicated entry name.) -/
theorem C5_dry_run_purity (fs : FS) (entries : List TarEntry) (force : Bool)
    (hnd : (dataNames entries).Nodup) :
    (restoreEntries true force fs entries).1 = fs
      ∧ (restoreEntries true force fs entries).2 = (restoreEntries false force fs entries).2 :=
  ⟨restoreEntries_fst_dry force fs entries,
    restoreEntries_dryReal entries force fs fs hnd (fun _ _ _ => rfl)⟩

/-- Counterexample to claim C5 as stated: an archive with two entries named
`a` on an empty filesystem.  The real run restores the first and then skips
the second (the first write made the path exist), while the dry run reports
two restores and no skip — the reported action set differs from the actual
one. -/
theorem C5_cex :
    Action.skip (str "a") ∈
        (restoreEntries false false []
          [⟨str "a", 420, .bytes (str "x")⟩, ⟨str "a", 420, .bytes (str "y")⟩]).2
      ∧ Action.skip (str "a") ∉
        (restoreEntries true false []
          [⟨str "a", 420, .bytes (str "x")⟩, ⟨str "a", 420, .bytes (str "y")⟩]).2 := by
  decide

/-- Witness for C5 at a concrete input: two distinct data entries, one of
which already exists on disk. -/
theorem C5_witness :
    (dataNames [⟨str "a", 420, .bytes (str "x")⟩, ⟨str "b", 420, .bytes (str "y")⟩]).Nodup
      ∧ ((restoreEntries true false [(str "a", .bytes (str "old"))]
            [⟨str "a", 420, .bytes (str "x")⟩, ⟨str "b", 420, .bytes (str "y")⟩]).1 =
            [(str "a", .bytes (str "old"))]
          ∧ (restoreEntries true false [(str "a", .bytes (str "old"))]
              [⟨str "a", 420, .bytes (str "x")⟩, ⟨str "b", 420, .bytes (str "y")⟩]).2 =
            (restoreEntries false false [(str "a", .bytes (str "old"))]
              [⟨str "a", 420, .bytes (str "x")⟩, ⟨str "b", 420, .bytes (str "y")⟩]).2) :=
  ⟨by decide,
    C5_dry_run_purity [(str "a", .bytes (str "old"))]
      [⟨str "a", 420, .bytes (str "x")⟩, ⟨str "b", 420, .bytes (str "y")⟩] false (by decide)⟩

lemma lookupStr_append (l₁ l₂ : List (Str × Str)) (k : Str) :
    lookupStr (l₁ ++ l₂) k =
      match lookupStr l₁ k with
      | some v => some v
      | none => lookupStr l₂ k := by
  induction l₁ with
  | nil => rfl
  | cons p t ih =>
    obtain ⟨k', v'⟩ := p
    by_cases h : k' = k
    · simp [lookupStr, h]
    · simp [lookupStr, h, ih]

lemma mapInsert_fresh (m : List (Str × Str)) (k : Str) (v : Str)
    (h : lookupStr m k = none) : mapInsert m k v = m ++ [(k, v)] := by
  induction m with
  | nil => rfl
  | cons p t ih =>
    obtain ⟨k', v'⟩ := p
    by_cases hk : k' = k
    · simp [lookupStr, hk] at h
    · simp only [mapInsert, if_neg hk, List.cons_append]
      rw [ih (by simpa [lookupStr, hk] using h)]

lemma writeSnapshotEntries_spec (digest : Str → Str) (fs : List FileSpec) :
    ∀ (tw : List TarEntry) (m : Manifest),
      (∀ f ∈ fs, lookupStr m.files f.path = none) →
      (fs.map FileSpec.path).Nodup →
      writeSnapshotEntries digest fs tw m =
        (tw ++ fs.map (fun f => ⟨f.path, f.mode, .bytes f.content⟩),
          { m with files := m.files ++ fs.map (fun f => (f.path, digest f.content)) }) := by
  induction fs with
  | nil => intro tw m _ _; simp [writeSnapshotEntries]
  | cons f rest ih =>
    intro tw m hfresh hnd
    rw [List.map_cons] at hnd
    have hnd' := List.nodup_cons.mp hnd
    have hfresh' : ∀ f' ∈ rest,
        lookupStr (m.files ++ [(f.path, digest f.content)]) f'.path = none := by
      intro f' hf'
      rw [lookupStr_append, hfresh f' (List.mem_cons_of_mem _ hf')]
      have hne : f.path ≠ f'.path := fun heq =>
        hnd'.1 (heq ▸ List.mem_map_of_mem FileSpec.path hf')
      simp [lookupStr, hne]
    have hrec := ih (tw ++ [⟨f.path, f.mode, .bytes f.content⟩])
      { m with files := m.files ++ [(f.path, digest f.content)] } hfresh' hnd'.2
    simp only [writeSnapshotEntries, addFileToArchive]
    rw [mapInsert_fresh m.files f.path (digest f.content) (hfresh f (List.mem_cons_self _ _))]
    rw [hrec]
    simp

lemma ReadManifest_append (tw : List TarEntry) (md : Nat) (m : Manifest)
    (h : ∀ e ∈ tw, e.name ≠ manifestFileName) :
    ReadManifest (tw ++ [⟨manifestFileName, md, .mani m⟩]) = .ok m := by
  induction tw with
  | nil => simp [ReadManifest]
  | cons e rest ih =>
    rw [List.cons_append]
    simp only [ReadManifest]
    rw [if_neg (h e (List.mem_cons_self _ _))]
    exact ih (fun e' he' => h e' (List.mem_cons_of_mem _ he'))

lemma lookupStr_map_fresh (digest : Str → Str) (fs : List FileSpec) (f : FileSpec)
    (hf : f ∈ fs) (hnd : (fs.map FileSpec.path).Nodup) :
    lookupStr (fs.map (fun g => (g.path, digest g.content))) f.path =
      some (digest f.content) := by
  induction fs with
  | nil => cases hf
  | cons g rest ih =>
    rw [List.map_cons] at hnd
    have hnd' := List.nodup_cons.mp hnd
    rcases List.mem_cons.mp hf with rfl | hf'
    · simp [lookupStr]
    · have hne : g.path ≠ f.path := by
        intro heq
        exact hnd'.1 (heq ▸ List.mem_map_of_mem FileSpec.path hf')
      simp only [List.map_cons, lookupStr, if_neg hne]
      exact ih hf' hnd'.2

/-- Claim C6 (amended): for every digest function and every file set with
distinct paths none of which is named `manifest.json`, decoding the manifest
of the archive `CreateSnapshot`'s write path produces yields a files map
whose keys are exactly the paths of the file set and whose value at each
path is the digest of that file's original content.  (As stated over every
file set the claim is false: a data file named `manifest.json` shadows the
manifest entry during the scan — see the counterexample.) -/
theorem C6_roundtrip (digest : Str → Str) (commit : Str) (ts : GoTime) (idx : Nat)
    (cfg : Config) (fs : List FileSpec)
    (hnd : (fs.map FileSpec.path).Nodup)
    (hnm : manifestFileName ∉ fs.map FileSpec.path) :
    ∃ m, ReadManifest (encodeSnapshot digest commit ts idx cfg fs) = .ok m
      ∧ m.files.map Prod.fst = fs.map FileSpec.path
      ∧ ∀ f ∈ fs, lookupStr m.files f.path = some (digest f.content) := by
  have henc : encodeSnapshot digest commit ts idx cfg fs =
      fs.map (fun f => ⟨f.path, f.mode, .bytes f.content⟩) ++
        [⟨manifestFileName, 420, .mani
          { commitHash := commit, timestamp := ts, index := idx,
            files := fs.map (fun f => (f.path, digest f.content)), config := cfg }⟩] := by
    unfold encodeSnapshot
    rw [writeSnapshotEntries_spec digest fs [] ⟨commit, ts, idx, [], cfg⟩ (fun f _ => rfl) hnd]
    rfl
  rw [henc]
  clear henc
  refine ⟨_, ReadManifest_append _ 420 _ ?_, ?_, ?_⟩
  · intro e he
    simp only [List.mem_map] at he
    obtain ⟨f, hf, rfl⟩ := he
    intro heq
    exact hnm (heq ▸ List.mem_map_of_mem FileSpec.path hf)
  · rw [List.map_map]
    rfl
  · intro f hf
    exact lookupStr_map_fresh digest fs f hf hnd

/-- Counterexample to claim C6 as stated: a file set containing a file whose
path is `manifest.json`.  Its data entry is written before the real manifest
entry, the decoding scan finds it first, and decoding its bytes fails, so
the round trip yields no files map at all. -/
theorem C6_cex :
    ReadManifest (encodeSnapshot (fun s => s) (str "abc") ⟨2024, 1, 1, 0, 0⟩ 0
        ⟨10, [], [], false, [], []⟩ [⟨str "manifest.json", str "hello", 420⟩]) =
      .error (str "failed to parse manifest") := by rfl

/-- Witness for C6 at a concrete input: two files with distinct paths. -/
theorem C6_witness :
    (([⟨str "a.txt", str "x", 420⟩, ⟨str ".env", str "y", 420⟩] :
          List FileSpec).map FileSpec.path).Nodup
      ∧ manifestFileName ∉ ([⟨str "a.txt", str "x", 420⟩, ⟨str ".env", str "y", 420⟩] :
          List FileSpec).map FileSpec.path
      ∧ ∃ m, ReadManifest (encodeSnapshot (fun s => s) (str "abc") ⟨2024, 1, 1, 0, 0⟩ 0
            ⟨10, [], [], false, [], []⟩
            [⟨str "a.txt", str "x", 420⟩, ⟨str ".env", str "y", 420⟩]) = .ok m
          ∧ m.files.map Prod.fst =
            ([⟨str "a.txt", str "x", 420⟩, ⟨str ".env", str "y", 420⟩] :
              List FileSpec).map FileSpec.path
          ∧ ∀ f ∈ ([⟨str "a.txt", str "x", 420⟩, ⟨str ".env", str "y", 420⟩] :
              List FileSpec), lookupStr m.files f.path = some ((fun s => s) f.content) :=
  ⟨by decide, by decide,
    C6_roundtrip (fun s => s) (str "abc") ⟨2024, 1, 1, 0, 0⟩ 0 ⟨10, [], [], false, [], []⟩
      [⟨str "a.txt", str "x", 420⟩, ⟨str ".env", str "y", 420⟩] (by decide) (by decide)⟩

lemma sortDesc_perm (l : List Str) : (sortDesc l).Perm l := List.perm_insertionSort _ l

lemma sortDesc_sorted (l : List Str) : (sortDesc l).Pairwise (fun a b : Str => b ≤ a) :=
  List.sorted_insertionSort _ l

lemma groupGet_addToGroup_same (c : Str) (f : Str) (m : List (Str × List Str)) :
    groupGet (addToGroup c f m) c = f :: groupGet m c := by
  induction m with
  | nil => simp [addToGroup, groupGet]
  | cons p t ih =>
    obtain ⟨c', g'⟩ := p
    by_cases h : c' = c
    · simp [addToGroup, groupGet, h]
    · simp [addToGroup, groupGet, h, ih]

lemma groupGet_addToGroup_ne (c' c : Str) (f : Str) (m : List (Str × List Str))
    (h : c' ≠ c) : groupGet (addToGroup c' f m) c = groupGet m c := by
  induction m with
  | nil => simp [addToGroup, groupGet, h]
  | cons p t ih =>
    obtain ⟨c'', g''⟩ := p
    by_cases h2 : c'' = c'
    · subst h2
      simp [addToGroup, groupGet, h]
    · by_cases h3 : c'' = c
      · subst h3
        simp [addToGroup, groupGet, h2, Ne.symm h]
      · simp [addToGroup, groupGet, h2, h3, ih]

lemma groupGet_groupSnapshots (files : List Str) (c : Str) :
    groupGet (groupSnapshots files) c = snapshotsFor files c := by
  induction files with
  | nil => simp [groupSnapshots, groupGet, snapshotsFor]
  | cons f rest ih =>
    unfold snapshotsFor at ih ⊢
    cases hk : snapKeyOf f with
    | none =>
      simp [groupSnapshots, hk, List.filter_cons, ih]
    | some c' =>
      by_cases hc : c' = c
      · subst hc
        simp [groupSnapshots, hk, groupGet_addToGroup_same, List.filter_cons, ih]
      · simp [groupSnapshots, hk, groupGet_addToGroup_ne c' c f _ hc, List.filter_cons, ih,
          hc]

lemma mem_keys_addToGroup (c f : Str) (m : List (Str × List Str)) (x : Str) :
    x ∈ (addToGroup c f m).map Prod.fst ↔ x ∈ m.map Prod.fst ∨ x = c := by
  induction m with
  | nil => simp [addToGroup]
  | cons p t ih =>
    obtain ⟨c', g'⟩ := p
    by_cases h : c' = c
    · subst h
      simp only [addToGroup, if_pos rfl, List.map_cons, List.mem_cons, if_true,
        eq_self_iff_true]
      tauto
    · simp only [addToGroup, if_neg h, List.map_cons, List.mem_cons, ih]
      tauto

lemma groupGet_of_mem (m : List (Str × List Str)) (c : Str) (g : List Str)
    (hnd : (m.map Prod.fst).Nodup) (hm : (c, g) ∈ m) : groupGet m c = g := by
  induction m with
  | nil => cases hm
  | cons p t ih =>
    obtain ⟨c', g'⟩ := p
    rw [List.map_cons] at hnd
    have hnd' := List.nodup_cons.mp hnd
    rcases List.mem_cons.mp hm with heq | hm'
    · injection heq with h1 h2
      subst h1
      subst h2
      simp [groupGet]
    · have hc : c' ≠ c := by
        rintro rfl
        exact hnd'.1 (List.mem_map.mpr ⟨(c', g), hm', rfl⟩)
      simp only [groupGet, if_neg hc]
      exact ih hnd'.2 hm'

lemma nodup_keys_addToGroup (c f : Str) (m : List (Str × List Str))
    (h : (m.map Prod.fst).Nodup) : ((addToGroup c f m).map Prod.fst).Nodup := by
  induction m with
  | nil => simp [addToGroup]
  | cons p t ih =>
    obtain ⟨c', g'⟩ := p
    rw [List.map_cons] at h
    have h' := List.nodup_cons.mp h
    by_cases hc : c' = c
    · subst hc
      simpa [addToGroup] using h
    · simp only [addToGroup, if_neg hc, List.map_cons, List.nodup_cons]
      refine ⟨?_, ih h'.2⟩
      rw [mem_keys_addToGroup]
      rintro (hx | rfl)
      · exact h'.1 hx
      · exact hc rfl

lemma nodup_keys_groupSnapshots (files : List Str) :
    ((groupSnapshots files).map Prod.fst).Nodup := by
  induction files with
  | nil => simp [groupSnapshots]
  | cons f rest ih =>
    cases hk : snapKeyOf f with
    | none => simpa [groupSnapshots, hk] using ih
    | some c => simpa [groupSnapshots, hk] using nodup_keys_addToGroup c f _ ih

lemma groupGet_ne_nil_mem (m : List (Str × List Str)) (c : Str)
    (h : groupGet m c ≠ []) : (c, groupGet m c) ∈ m := by
  induction m with
  | nil => simp [groupGet] at h
  | cons p t ih =>
    obtain ⟨c', g'⟩ := p
    by_cases hc : c' = c
    · subst hc
      simp [groupGet]
    · simp only [groupGet, if_neg hc] at h ⊢
      exact List.mem_cons_of_mem _ (ih h)

lemma key_of_mem_snapshotsFor {files : List Str} {c x : Str}
    (h : x ∈ snapshotsFor files c) : snapKeyOf x = some c := by
  have := (List.mem_filter.mp h).2
  simpa using this

lemma mem_pruneDeletions (files : List Str) (rc : Nat) (x : Str) :
    x ∈ pruneDeletions files rc ↔
      ∃ c, snapKeyOf x = some c ∧ x ∈ (sortDesc (snapshotsFor files c)).drop rc := by
  unfold pruneDeletions
  rw [List.mem_flatten]
  constructor
  · rintro ⟨l, hl, hx⟩
    rw [List.mem_map] at hl
    obtain ⟨⟨c, g⟩, hcg, rfl⟩ := hl
    have hg : g = snapshotsFor files c := by
      rw [← groupGet_of_mem _ c g (nodup_keys_groupSnapshots files) hcg,
        groupGet_groupSnapshots]
    subst hg
    have hx' : x ∈ snapshotsFor files c :=
      ((sortDesc_perm _).mem_iff).mp (List.drop_subset _ _ hx)
    exact ⟨c, key_of_mem_snapshotsFor hx', hx⟩
  · rintro ⟨c, hkey, hx⟩
    have hne : snapshotsFor files c ≠ [] := by
      intro h0
      rw [h0] at hx
      simp [sortDesc, List.insertionSort] at hx
    have hget : groupGet (groupSnapshots files) c ≠ [] := by
      rw [groupGet_groupSnapshots]; exact hne
    have hmem := groupGet_ne_nil_mem _ c hget
    rw [groupGet_groupSnapshots] at hmem
    exact ⟨(sortDesc (snapshotsFor files c)).drop rc,
      List.mem_map_of_mem (fun p => (sortDesc p.2).drop rc) hmem, hx⟩

lemma snapshotsFor_filter (files : List Str) (c : Str) (p : Str → Bool) :
    snapshotsFor (files.filter p) c = (snapshotsFor files c).filter p := by
  unfold snapshotsFor
  rw [List.filter_filter, List.filter_filter]
  apply List.filter_congr
  intro a _
  exact Bool.and_comm _ _

lemma mem_dels_iff_drop {files : List Str} {c x : Str} {N : Nat}
    (hx : x ∈ snapshotsFor files c) :
    x ∈ pruneDeletions files N ↔ x ∈ (sortDesc (snapshotsFor files c)).drop N := by
  rw [mem_pruneDeletions]
  constructor
  · rintro ⟨c', hk, hdrop⟩
    have hkc := key_of_mem_snapshotsFor hx
    rw [hkc] at hk
    injection hk with h
    subst h
    exact hdrop
  · intro h
    exact ⟨c, key_of_mem_snapshotsFor hx, h⟩

lemma snapshotsFor_prune (files : List Str) (c : Str) (N : Nat) (hnd : files.Nodup) :
    ∀ x, x ∈ snapshotsFor (files.filter (fun f => decide (f ∉ pruneDeletions files N))) c ↔
      x ∈ (sortDesc (snapshotsFor files c)).take N := by
  intro x
  rw [snapshotsFor_filter, List.mem_filter]
  constructor
  · rintro ⟨hxg, hq⟩
    have hnotdel : x ∉ pruneDeletions files N := by simpa using hq
    rw [mem_dels_iff_drop hxg] at hnotdel
    have hxs : x ∈ sortDesc (snapshotsFor files c) := (sortDesc_perm _).mem_iff.mpr hxg
    rw [← List.take_append_drop N (sortDesc (snapshotsFor files c)), List.mem_append] at hxs
    tauto
  · intro htake
    have hxs : x ∈ sortDesc (snapshotsFor files c) := List.take_subset _ _ htake
    have hxg : x ∈ snapshotsFor files c := (sortDesc_perm _).mem_iff.mp hxs
    refine ⟨hxg, ?_⟩
    simp only [decide_eq_true_eq]
    rw [mem_dels_iff_drop hxg]
    have hsnd : (sortDesc (snapshotsFor files c)).Nodup :=
      ((sortDesc_perm _).nodup_iff).mpr (hnd.filter _)
    have hnd2 := List.nodup_append.mp
      (show ((sortDesc (snapshotsFor files c)).take N ++
          (sortDesc (snapshotsFor files c)).drop N).Nodup by
        rw [List.take_append_drop]; exact hsnd)
    exact fun hdrop => (List.disjoint_left.mp hnd2.2.2) htake hdrop

/-- Claim C8: a prune run with retention `N >= 1` on a duplicate-free
directory listing succeeds; a commit with more than `N` snapshots is left
with exactly `N`, all drawn from its original snapshots and each
lexicographically greater than every snapshot of that commit that was
deleted (so the `N` greatest survive); a commit with at most `N` snapshots
is left entirely unchanged. -/
theorem C8_retention (files : List Str) (c : Str) (N : Nat) (hN : 1 ≤ N)
    (hnd : files.Nodup) :
    ∃ survivors, pruneRun files N = .ok survivors
      ∧ ((snapshotsFor files c).length ≤ N →
          snapshotsFor survivors c = snapshotsFor files c)
      ∧ (N < (snapshotsFor files c).length →
          (snapshotsFor survivors c).length = N
          ∧ (∀ s ∈ snapshotsFor survivors c, s ∈ snapshotsFor files c)
          ∧ (∀ s ∈ snapshotsFor survivors c, ∀ d ∈ snapshotsFor files c,
              d ∉ snapshotsFor survivors c → d < s)) := by
  refine ⟨files.filter (fun f => decide (f ∉ pruneDeletions files N)), ?_, ?_, ?_⟩
  · unfold pruneRun
    rw [if_neg (by omega)]
  · intro hle
    have hdropnil : (sortDesc (snapshotsFor files c)).drop N = [] := by
      apply List.drop_eq_nil_of_le
      rw [(sortDesc_perm _).length_eq]
      exact hle
    rw [snapshotsFor_filter]
    apply List.filter_eq_self.mpr
    intro a ha
    simp only [decide_eq_true_eq]
    rw [mem_dels_iff_drop ha, hdropnil]
    simp
  · intro hgt
    have hchar := snapshotsFor_prune files c N hnd
    have hsnd : (sortDesc (snapshotsFor files c)).Nodup :=
      ((sortDesc_perm _).nodup_iff).mpr (hnd.filter _)
    have htake_nd : ((sortDesc (snapshotsFor files c)).take N).Nodup :=
      List.Nodup.sublist (List.take_sublist N _) hsnd
    have hsurvnd : (snapshotsFor
        (files.filter (fun f => decide (f ∉ pruneDeletions files N))) c).Nodup :=
      (hnd.filter _).filter _
    have hperm_take :
        (snapshotsFor (files.filter (fun f => decide (f ∉ pruneDeletions files N))) c).Perm
          ((sortDesc (snapshotsFor files c)).take N) :=
      (List.perm_ext_iff_of_nodup hsurvnd htake_nd).mpr hchar
    refine ⟨?_, ?_, ?_⟩
    · rw [hperm_take.length_eq, List.length_take]
      have hlen : N ≤ (sortDesc (snapshotsFor files c)).length := by
        rw [(sortDesc_perm _).length_eq]; omega
      exact min_eq_left hlen
    · intro s hs
      rw [hchar] at hs
      exact (sortDesc_perm _).mem_iff.mp (List.take_subset _ _ hs)
    · intro s hs d hd hdnot
      rw [hchar] at hs
      have hd_drop : d ∈ (sortDesc (snapshotsFor files c)).drop N := by
        have hnt : ¬ d ∈ (sortDesc (snapshotsFor files c)).take N :=
          fun h => hdnot ((hchar d).mpr h)
        have hds : d ∈ sortDesc (snapshotsFor files c) := (sortDesc_perm _).mem_iff.mpr hd
        rw [← List.take_append_drop N (sortDesc (snapshotsFor files c)),
          List.mem_append] at hds
        tauto
      have hpw2 : ((sortDesc (snapshotsFor files c)).take N ++
          (sortDesc (snapshotsFor files c)).drop N).Pairwise (fun a b => b ≤ a) := by
        rw [List.take_append_drop]
        exact sortDesc_sorted (snapshotsFor files c)
      have hle := (List.pairwise_append.mp hpw2).2.2 s hs d hd_drop
      have hne : d ≠ s := by
        intro heq
        subst heq
        exact hdnot ((hchar d).mpr hs)
      exact lt_of_le_of_ne hle hne

/-- Witness for C8 at a concrete input: two snapshots of commit `c`,
retention 1. -/
theorem C8_witness :
    1 ≤ 1
      ∧ ([str "c_20240101T0000_0.tar.gz", str "c_20240102T0000_0.tar.gz"] :
          List Str).Nodup
      ∧ ∃ survivors,
          pruneRun [str "c_20240101T0000_0.tar.gz", str "c_20240102T0000_0.tar.gz"] 1 =
            .ok survivors
          ∧ ((snapshotsFor [str "c_20240101T0000_0.tar.gz",
                str "c_20240102T0000_0.tar.gz"] (str "c")).length ≤ 1 →
              snapshotsFor survivors (str "c") =
                snapshotsFor [str "c_20240101T0000_0.tar.gz",
                  str "c_20240102T0000_0.tar.gz"] (str "c"))
          ∧ (1 < (snapshotsFor [str "c_20240101T0000_0.tar.gz",
                str "c_20240102T0000_0.tar.gz"] (str "c")).length →
              (snapshotsFor survivors (str "c")).length = 1
              ∧ (∀ s ∈ snapshotsFor survivors (str "c"),
                  s ∈ snapshotsFor [str "c_20240101T0000_0.tar.gz",
                    str "c_20240102T0000_0.tar.gz"] (str "c"))
              ∧ (∀ s ∈ snapshotsFor survivors (str "c"),
                  ∀ d ∈ snapshotsFor [str "c_20240101T0000_0.tar.gz",
                    str "c_20240102T0000_0.tar.gz"] (str "c"),
                  d ∉ snapshotsFor survivors (str "c") → d < s)) :=
  ⟨le_refl 1, by decide,
    C8_retention [str "c_20240101T0000_0.tar.gz", str "c_20240102T0000_0.tar.gz"] (str "c")
      1 (le_refl 1) (by decide)⟩

lemma toDecAux_fuel (n : Nat) : ∀ f₁ f₂ : Nat, n < f₁ → n < f₂ →
    toDecAux f₁ n = toDecAux f₂ n := by
  induction n using Nat.strong_induction_on with
  | _ n ih =>
    intro f₁ f₂ h₁ h₂
    cases f₁ with
    | zero => omega
    | succ a =>
      cases f₂ with
      | zero => omega
      | succ b =>
        simp only [toDecAux]
        by_cases h : n < 10
        · simp [h]
        · rw [if_neg h, if_neg h]
          have hdiv : n / 10 < n := Nat.div_lt_self (by omega) (by omega)
          rw [ih (n / 10) hdiv a b (by omega) (by omega)]

lemma toDec_eq (n : Nat) :
    toDec n = if n < 10 then [digitChar n] else toDec (n / 10) ++ [digitChar (n % 10)] := by
  by_cases h : n < 10
  · rw [if_pos h]
    show (if n < 10 then [digitChar n] else toDecAux n (n / 10) ++ [digitChar (n % 10)]) = _
    rw [if_pos h]
  · rw [if_neg h]
    have hdiv : n / 10 < n := Nat.div_lt_self (by omega) (by omega)
    have h2 : toDec n = toDecAux n (n / 10) ++ [digitChar (n % 10)] := by
      show (if n < 10 then [digitChar n] else toDecAux n (n / 10) ++ [digitChar (n % 10)]) = _
      rw [if_neg h]
    have hfuel : toDecAux n (n / 10) = toDecAux (n / 10 + 1) (n / 10) :=
      toDecAux_fuel (n / 10) n (n / 10 + 1) hdiv (by omega)
    rw [h2, hfuel]
    rfl

lemma dval_digitChar (k : Nat) (h : k ≤ 9) : dval (digitChar k) = k := by
  interval_cases k <;> rfl

lemma isDigit_digitChar (k : Nat) (h : k ≤ 9) : IsDigitChar (digitChar k) := by
  interval_cases k <;> exact ⟨by decide, by decide⟩

lemma toDec_digits (n : Nat) : ∀ c ∈ toDec n, IsDigitChar c := by
  induction n using Nat.strong_induction_on with
  | _ n ih =>
    intro c hc
    rw [toDec_eq] at hc
    by_cases h : n < 10
    · rw [if_pos h] at hc
      rcases List.mem_singleton.mp hc with rfl
      exact isDigit_digitChar n (by omega)
    · rw [if_neg h] at hc
      rcases List.mem_append.mp hc with hc | hc
      · have hdiv : n / 10 < n := Nat.div_lt_self (by omega) (by omega)
        exact ih (n / 10) hdiv c hc
      · rcases List.mem_singleton.mp hc with rfl
        exact isDigit_digitChar (n % 10) (by omega)

lemma decVal_append_single (l : Str) (c : Char) :
    decVal (l ++ [c]) = 10 * decVal l + dval c := by
  induction l with
  | nil => simp [decVal]
  | cons c' t ih =>
    simp only [List.cons_append, List.append_eq, decVal, ih, List.length_append,
      List.length_cons, List.length_nil, pow_succ, pow_zero]
    ring

lemma decVal_toDec (n : Nat) : decVal (toDec n) = n := by
  induction n using Nat.strong_induction_on with
  | _ n ih =>
    rw [toDec_eq]
    by_cases h : n < 10
    · rw [if_pos h]
      simp [decVal, dval_digitChar n (by omega)]
    · rw [if_neg h]
      have hdiv : n / 10 < n := Nat.div_lt_self (by omega) (by omega)
      rw [decVal_append_single, ih (n / 10) hdiv, dval_digitChar (n % 10) (by omega)]
      omega

lemma toDec_length_le (n : Nat) : ∀ k : Nat, 1 ≤ k → n < 10 ^ k → (toDec n).length ≤ k := by
  induction n using Nat.strong_induction_on with
  | _ n ih =>
    intro k hk hlt
    rw [toDec_eq]
    by_cases h : n < 10
    · rw [if_pos h]
      simpa using hk
    · rw [if_neg h]
      have hk2 : 2 ≤ k := by
        rcases Nat.lt_or_ge k 2 with hc | hc
        · exfalso
          have hk1 : k = 1 := by omega
          rw [hk1] at hlt
          simp at hlt
          omega
        · exact hc
      rw [List.length_append]
      have hdiv : n / 10 < n := Nat.div_lt_self (by omega) (by omega)
      have hbound : n / 10 < 10 ^ (k - 1) := by
        rw [Nat.div_lt_iff_lt_mul (by omega)]
        have hpow : 10 ^ (k - 1) * 10 = 10 ^ k := by
          rw [← pow_succ]
          congr 1
          omega
        omega
      have hrec := ih (n / 10) hdiv (k - 1) (by omega) hbound
      simp only [List.length_cons, List.length_nil]
      omega

lemma decVal_lt_pow (l : Str) (h : ∀ c ∈ l, IsDigitChar c) : decVal l < 10 ^ l.length := by
  induction l with
  | nil => simp [decVal]
  | cons c t ih =>
    have hc := h c (List.mem_cons_self _ _)
    have hd : dval c ≤ 9 := by
      obtain ⟨h1, h2⟩ := hc
      unfold dval
      omega
    have ht := ih (fun c' hc' => h c' (List.mem_cons_of_mem _ hc'))
    simp only [decVal, List.length_cons, pow_succ]
    calc dval c * 10 ^ t.length + decVal t
        < dval c * 10 ^ t.length + 10 ^ t.length := by omega
      _ = (dval c + 1) * 10 ^ t.length := by ring
      _ ≤ 10 * 10 ^ t.length := Nat.mul_le_mul_right _ (by omega)
      _ = 10 ^ t.length * 10 := by ring

lemma lex_cons_cons_iff {α : Type} {r : α → α → Prop} {a b : α} {l₁ l₂ : List α} :
    List.Lex r (a :: l₁) (b :: l₂) ↔ r a b ∨ (a = b ∧ List.Lex r l₁ l₂) := by
  constructor
  · intro h
    cases h with
    | rel h => exact Or.inl h
    | cons h => exact Or.inr ⟨rfl, h⟩
  · rintro (h | ⟨rfl, h⟩)
    · exact List.Lex.rel h
    · exact List.Lex.cons h

lemma lex_append_iff {α : Type} {r : α → α → Prop} :
    ∀ (a₁ a₂ b₁ b₂ : List α), a₁.length = a₂.length →
      (List.Lex r (a₁ ++ b₁) (a₂ ++ b₂) ↔
        List.Lex r a₁ a₂ ∨ (a₁ = a₂ ∧ List.Lex r b₁ b₂)) := by
  intro a₁
  induction a₁ with
  | nil =>
    intro a₂ b₁ b₂ hlen
    cases a₂ with
    | nil =>
      constructor
      · exact fun h => Or.inr ⟨rfl, h⟩
      · rintro (h | ⟨-, h⟩)
        · cases h
        · exact h
    | cons y t₂ => simp at hlen
  | cons x t ih =>
    intro a₂ b₁ b₂ hlen
    cases a₂ with
    | nil => simp at hlen
    | cons y t₂ =>
      simp only [List.cons_append]
      rw [lex_cons_cons_iff, lex_cons_cons_iff, ih t₂ b₁ b₂ (by simpa using hlen)]
      simp only [List.cons.injEq]
      tauto

lemma str_cons_lt_iff (c₁ c₂ : Char) (l₁ l₂ : Str) :
    (c₁ :: l₁ : Str) < c₂ :: l₂ ↔ c₁ < c₂ ∨ (c₁ = c₂ ∧ l₁ < l₂) :=
  lex_cons_cons_iff

lemma str_append_lt_iff (a₁ a₂ b₁ b₂ : Str) (h : a₁.length = a₂.length) :
    a₁ ++ b₁ < a₂ ++ b₂ ↔ a₁ < a₂ ∨ (a₁ = a₂ ∧ b₁ < b₂) :=
  lex_append_iff a₁ a₂ b₁ b₂ h

lemma digit_lt_iff {c₁ c₂ : Char} (h₁ : IsDigitChar c₁) (h₂ : IsDigitChar c₂) :
    c₁ < c₂ ↔ dval c₁ < dval c₂ := by
  obtain ⟨ha₁, hb₁⟩ := h₁
  obtain ⟨ha₂, hb₂⟩ := h₂
  unfold dval
  constructor
  · intro h
    have hn : c₁.toNat < c₂.toNat := h
    omega
  · intro h
    show c₁.toNat < c₂.toNat
    omega

lemma digit_eq_iff {c₁ c₂ : Char} (h₁ : IsDigitChar c₁) (h₂ : IsDigitChar c₂) :
    c₁ = c₂ ↔ dval c₁ = dval c₂ := by
  constructor
  · intro h
    rw [h]
  · intro h
    obtain ⟨ha₁, hb₁⟩ := h₁
    obtain ⟨ha₂, hb₂⟩ := h₂
    unfold dval at h
    exact Char.ext (UInt32.ext (show c₁.toNat = c₂.toNat by omega))

lemma decVal_lt_iff_lex (l₁ : Str) : ∀ (l₂ : Str), l₁.length = l₂.length →
    (∀ c ∈ l₁, IsDigitChar c) → (∀ c ∈ l₂, IsDigitChar c) →
    (decVal l₁ < decVal l₂ ↔ l₁ < l₂) := by
  induction l₁ with
  | nil =>
    intro l₂ hlen _ _
    cases l₂ with
    | nil =>
      constructor
      · intro h
        exact absurd h (lt_irrefl _)
      · intro h
        exact absurd h (lt_irrefl _)
    | cons c t => simp at hlen
  | cons c₁ t₁ ih =>
    intro l₂ hlen h₁ h₂
    cases l₂ with
    | nil => simp at hlen
    | cons c₂ t₂ =>
      have hc₁ := h₁ c₁ (List.mem_cons_self _ _)
      have hc₂ := h₂ c₂ (List.mem_cons_self _ _)
      have ht₁ := fun c hc => h₁ c (List.mem_cons_of_mem _ hc)
      have ht₂ := fun c hc => h₂ c (List.mem_cons_of_mem _ hc)
      have hlen' : t₁.length = t₂.length := by simpa using hlen
      have hb₁ : decVal t₁ < 10 ^ t₁.length := decVal_lt_pow t₁ ht₁
      have hb₂ : decVal t₂ < 10 ^ t₂.length := decVal_lt_pow t₂ ht₂
      rw [hlen'] at hb₁
      simp only [decVal, hlen', str_cons_lt_iff, digit_lt_iff hc₁ hc₂, digit_eq_iff hc₁ hc₂,
        ← ih t₂ hlen' ht₁ ht₂]
      rcases Nat.lt_trichotomy (dval c₁) (dval c₂) with hlt | heq | hgt
      · constructor
        · intro _
          exact Or.inl hlt
        · intro _
          calc dval c₁ * 10 ^ t₂.length + decVal t₁
              < (dval c₁ + 1) * 10 ^ t₂.length := by ring_nf; omega
            _ ≤ dval c₂ * 10 ^ t₂.length := Nat.mul_le_mul_right _ (by omega)
            _ ≤ dval c₂ * 10 ^ t₂.length + decVal t₂ := by omega
      · rw [heq]
        constructor
        · intro h
          exact Or.inr ⟨rfl, by omega⟩
        · rintro (h | ⟨-, h⟩)
          · omega
          · omega
      · constructor
        · intro h
          exfalso
          have : dval c₂ * 10 ^ t₂.length + decVal t₂ <
              dval c₁ * 10 ^ t₂.length + decVal t₁ := by
            calc dval c₂ * 10 ^ t₂.length + decVal t₂
                < (dval c₂ + 1) * 10 ^ t₂.length := by ring_nf; omega
              _ ≤ dval c₁ * 10 ^ t₂.length := Nat.mul_le_mul_right _ (by omega)
              _ ≤ dval c₁ * 10 ^ t₂.length + decVal t₁ := by omega
          omega
        · rintro (h | ⟨heq, -⟩)
          · omega
          · omega

lemma dval_zero_char : dval '0' = 0 := rfl

lemma decVal_replicate_zero (k : Nat) (l : Str) :
    decVal (List.replicate k '0' ++ l) = decVal l := by
  induction k with
  | zero => rfl
  | succ k ih =>
    simp only [List.replicate_succ, List.cons_append, List.append_eq, decVal, ih,
      dval_zero_char]
    omega

lemma toDec_ne_nil (n : Nat) : toDec n ≠ [] := by
  rw [toDec_eq]
  by_cases h : n < 10
  · simp [h]
  · simp [h]

lemma padZ_length (w n : Nat) (hw : 1 ≤ w) (h : n < 10 ^ w) : (padZ w n).length = w := by
  unfold padZ
  rw [List.length_append, List.length_replicate]
  have := toDec_length_le n w hw h
  omega

lemma padZ_digits (w n : Nat) : ∀ c ∈ padZ w n, IsDigitChar c := by
  intro c hc
  unfold padZ at hc
  rcases List.mem_append.mp hc with hc | hc
  · rcases List.eq_of_mem_replicate hc with rfl
    exact ⟨by decide, by decide⟩
  · exact toDec_digits n c hc

lemma decVal_padZ (w n : Nat) : decVal (padZ w n) = n := by
  unfold padZ
  rw [decVal_replicate_zero, decVal_toDec]

lemma padZ_lt_iff (w a b : Nat) (hw : 1 ≤ w) (ha : a < 10 ^ w) (hb : b < 10 ^ w) :
    padZ w a < padZ w b ↔ a < b := by
  have h := decVal_lt_iff_lex (padZ w a) (padZ w b)
    (by rw [padZ_length w a hw ha, padZ_length w b hw hb])
    (padZ_digits w a) (padZ_digits w b)
  rw [decVal_padZ, decVal_padZ] at h
  exact h.symm

lemma padZ_eq_iff (w a b : Nat) : padZ w a = padZ w b ↔ a = b := by
  constructor
  · intro h
    have := congrArg decVal h
    rwa [decVal_padZ, decVal_padZ] at this
  · intro h
    rw [h]

lemma toDec_lt_iff (i₁ i₂ : Nat) (hlen : (toDec i₁).length = (toDec i₂).length) :
    toDec i₁ < toDec i₂ ↔ i₁ < i₂ := by
  have h := decVal_lt_iff_lex (toDec i₁) (toDec i₂) hlen (toDec_digits i₁) (toDec_digits i₂)
  rw [decVal_toDec, decVal_toDec] at h
  exact h.symm

lemma format1504_lt_iff (t₁ t₂ : GoTime) (h₁ : validTime t₁) (h₂ : validTime t₂) :
    format1504 t₁ < format1504 t₂ ↔ timeLt t₁ t₂ := by
  obtain ⟨hy₁, hmo₁a, hmo₁, hd₁a, hd₁, hh₁, hmi₁⟩ := h₁
  obtain ⟨hy₂, hmo₂a, hmo₂, hd₂a, hd₂, hh₂, hmi₂⟩ := h₂
  unfold format1504 timeLt
  rw [str_append_lt_iff _ _ _ _
      (by rw [padZ_length 4 _ (by omega) hy₁, padZ_length 4 _ (by omega) hy₂]),
    padZ_lt_iff 4 _ _ (by omega) hy₁ hy₂, padZ_eq_iff,
    str_append_lt_iff _ _ _ _
      (by rw [padZ_length 2 _ (by omega) (by omega), padZ_length 2 _ (by omega) (by omega)]),
    padZ_lt_iff 2 _ _ (by omega) (by omega) (by omega), padZ_eq_iff,
    str_append_lt_iff _ _ _ _
      (by rw [padZ_length 2 _ (by omega) (by omega), padZ_length 2 _ (by omega) (by omega)]),
    padZ_lt_iff 2 _ _ (by omega) (by omega) (by omega), padZ_eq_iff,
    str_append_lt_iff ['T'] ['T'] _ _ rfl,
    str_append_lt_iff _ _ _ _
      (by rw [padZ_length 2 _ (by omega) (by omega), padZ_length 2 _ (by omega) (by omega)]),
    padZ_lt_iff 2 _ _ (by omega) (by omega) (by omega), padZ_eq_iff,
    padZ_lt_iff 2 _ _ (by omega) (by omega) (by omega)]
  have hT : ¬ (['T'] : Str) < ['T'] := lt_irrefl _
  simp [hT]

lemma format1504_length (t : GoTime) (h : validTime t) : (format1504 t).length = 13 := by
  obtain ⟨hy, hmoa, hmo, hda, hd, hh, hmi⟩ := h
  unfold format1504
  simp only [List.length_append, List.length_cons, List.length_nil]
  rw [padZ_length 4 _ (by omega) hy, padZ_length 2 _ (by omega) (by omega),
    padZ_length 2 _ (by omega) (by omega), padZ_length 2 _ (by omega) (by omega),
    padZ_length 2 _ (by omega) (by omega)]

lemma str_append_eq_iff (a₁ a₂ b₁ b₂ : Str) (h : a₁.length = a₂.length) :
    a₁ ++ b₁ = a₂ ++ b₂ ↔ a₁ = a₂ ∧ b₁ = b₂ := by
  constructor
  · intro he
    exact List.append_inj he h
  · rintro ⟨ha, hb⟩
    rw [ha, hb]

lemma format1504_eq_iff (t₁ t₂ : GoTime) (h₁ : validTime t₁) (h₂ : validTime t₂) :
    format1504 t₁ = format1504 t₂ ↔ t₁ = t₂ := by
  obtain ⟨y₁, mo₁, d₁, hh₁, mi₁⟩ := t₁
  obtain ⟨y₂, mo₂, d₂, hh₂, mi₂⟩ := t₂
  obtain ⟨hy₁, hmo₁a, hmo₁, hd₁a, hd₁, hho₁, hmi₁⟩ := h₁
  obtain ⟨hy₂, hmo₂a, hmo₂, hd₂a, hd₂, hho₂, hmi₂⟩ := h₂
  simp only at hy₁ hmo₁ hd₁ hho₁ hmi₁ hy₂ hmo₂ hd₂ hho₂ hmi₂
  unfold format1504
  simp only
  rw [str_append_eq_iff _ _ _ _
      (by rw [padZ_length 4 _ (by omega) hy₁, padZ_length 4 _ (by omega) hy₂]),
    padZ_eq_iff,
    str_append_eq_iff _ _ _ _
      (by rw [padZ_length 2 _ (by omega) (by omega), padZ_length 2 _ (by omega) (by omega)]),
    padZ_eq_iff,
    str_append_eq_iff _ _ _ _
      (by rw [padZ_length 2 _ (by omega) (by omega), padZ_length 2 _ (by omega) (by omega)]),
    padZ_eq_iff,
    str_append_eq_iff _ _ _ _ rfl,
    str_append_eq_iff _ _ _ _
      (by rw [padZ_length 2 _ (by omega) (by omega), padZ_length 2 _ (by omega) (by omega)]),
    padZ_eq_iff, padZ_eq_iff]
  simp [GoTime.mk.injEq]

/-- Claim C2 (amended): the snapshot filename encoding is order-preserving
from `(timestamp, index)` keys to lexicographic filename order for all
calendar timestamps and all index pairs with the same number of decimal
digits.  (As stated over all index values the claim is false, because the
index is rendered without zero-padding: see the counterexample with indices
9 and 10.) -/
theorem C2_filename_order (commit : Str) (t₁ t₂ : GoTime) (i₁ i₂ : Nat)
    (h₁ : validTime t₁) (h₂ : validTime t₂)
    (hlen : (toDec i₁).length = (toDec i₂).length) :
    snapKeyLt t₁ i₁ t₂ i₂ ↔
      snapshotFilename commit t₁ i₁ < snapshotFilename commit t₂ i₂ := by
  unfold snapshotFilename snapKeyLt
  rw [str_append_lt_iff _ _ _ _ rfl, str_cons_lt_iff,
    str_append_lt_iff _ _ _ _ (by rw [format1504_length t₁ h₁, format1504_length t₂ h₂]),
    format1504_lt_iff t₁ t₂ h₁ h₂, format1504_eq_iff t₁ t₂ h₁ h₂, str_cons_lt_iff,
    str_append_lt_iff _ _ _ _ hlen, toDec_lt_iff i₁ i₂ hlen]
  have hu : ¬ ('_' : Char) < '_' := by decide
  have hcc : ¬ commit < commit := lt_irrefl _
  have hsfx : ¬ str ".tar.gz" < str ".tar.gz" := lt_irrefl _
  simp [hu, hcc, hsfx]

/-- Counterexample to claim C2 as stated: at equal timestamps, index 9
precedes index 10 chronologically, but the filename of index 10 sorts
before the filename of index 9 (the unpadded decimal `10` is
lexicographically below `9`). -/
theorem C2_cex :
    validTime ⟨2025, 1, 1, 0, 0⟩
      ∧ snapKeyLt ⟨2025, 1, 1, 0, 0⟩ 9 ⟨2025, 1, 1, 0, 0⟩ 10
      ∧ ¬ snapshotFilename (str "abc") ⟨2025, 1, 1, 0, 0⟩ 9 <
          snapshotFilename (str "abc") ⟨2025, 1, 1, 0, 0⟩ 10 := by decide

/-- Witness for C2 at a concrete input: two distinct days, single-digit
indices. -/
theorem C2_witness :
    validTime ⟨2024, 5, 1, 10, 30⟩ ∧ validTime ⟨2024, 5, 2, 10, 30⟩
      ∧ (toDec 3).length = (toDec 7).length
      ∧ (snapKeyLt ⟨2024, 5, 1, 10, 30⟩ 3 ⟨2024, 5, 2, 10, 30⟩ 7 ↔
          snapshotFilename (str "abc") ⟨2024, 5, 1, 10, 30⟩ 3 <
            snapshotFilename (str "abc") ⟨2024, 5, 2, 10, 30⟩ 7) :=
  ⟨by decide, by decide, by decide,
    C2_filename_order (str "abc") ⟨2024, 5, 1, 10, 30⟩ ⟨2024, 5, 2, 10, 30⟩ 3 7
      (by decide) (by decide) (by decide)⟩

end Ignoregrets
